import Mathlib

/-!
Verification of the repository synchronizer in `src/public/install.py`.

The Python module shells out to `git`; each external command is embedded as a
constructor of `Cmd`, and `Cmd.render` reproduces the exact shell string the
source builds.  The effect of the commands on a checkout is modelled by a
state-transition semantics over `World` (the remote side, which is fixed
during a run) and `LocalRepo` (the local working copy).  Every operation
returns the list of commands it issued together with either the final state
or the first error (mirroring `subprocess.check_output`, which raises
`CalledProcessError` on the first non-zero exit).
-/

namespace PublicInstall

/-- Shell strings for the reset-and-pull compound command issued by
`_update_code` (install.py line 703). -/
def resetPullStr : String :=
  "git checkout --force $(git symbolic-ref refs/remotes/origin/HEAD --short | sed ''s#origin/##'') && git pull --ff-only --force --prune --tags"

/-- The external commands issued by `_clone_repo` / `_update_code`
(install.py lines 484-504 and 687-719). -/
inductive Cmd where
  | aptUpdate : Cmd
  | aptInstallGit : Cmd
  | clone (url target : String) : Cmd
  | resetPull : Cmd
  | submoduleUpdateInit : Cmd
  | foreachResetPull : Cmd
  | checkout (label : String) : Cmd
  | submoduleStatusAwk (name : String) : Cmd
  | gitCcheckout (path label : String) : Cmd
deriving DecidableEq

/-- The exact shell string each command renders to in the source. -/
def Cmd.render : Cmd → String
  | .aptUpdate => "apt -y update"
  | .aptInstallGit => "apt install -y git"
  | .clone url target => "git clone --recurse-submodules " ++ url ++ " " ++ target
  | .resetPull => resetPullStr
  | .submoduleUpdateInit => "git submodule update --init --recursive"
  | .foreachResetPull => "git submodule foreach --recursive '" ++ resetPullStr ++ "'"
  | .checkout label => "git checkout " ++ label
  | .submoduleStatusAwk name =>
      "git submodule status | awk '$2 ~ /" ++ name ++ "/ \x7bprint $2\x7d'"
  | .gitCcheckout path label => "git -C " ++ path ++ " checkout " ++ label

/-- Test for the two package-manager commands of the git preflight. -/
def Cmd.isApt : Cmd → Bool
  | .aptUpdate => true
  | .aptInstallGit => true
  | _ => false

/-- Test for the clone command. -/
def Cmd.isClone : Cmd → Bool
  | .clone _ _ => true
  | _ => false

/-- Errors of a synchronization run.  The code raises
`subprocess.CalledProcessError` for any failing command (`processFailure`
carries the failing command); `submoduleResolutionAmbiguous` is the dedicated
error named by the specification's taxonomy, which the code never raises. -/
inductive SyncError where
  | submoduleResolutionAmbiguous (name : String) : SyncError
  | processFailure (cmd : Cmd) : SyncError
deriving DecidableEq

/-- A remote git repository: its default branch (the target of
`refs/remotes/origin/HEAD`), the commit at that branch's tip, and the
resolvable revision labels (branches/tags) with the commits they name. -/
structure RemoteRepo where
  defaultBranch : String
  tip : Nat
  refs : List (String × Nat)
deriving DecidableEq

/-- The fixed remote side of a run: the superproject remote, the submodule
remotes keyed by their on-disk path, the gitlink commit each superproject
commit records for each submodule path, and the commit ancestry used by
`git pull --ff-only` (`anc a b` = `a` is a strict ancestor of `b`). -/
structure World where
  remote : RemoteRepo
  subs : List (String × RemoteRepo)
  recorded : Nat → String → Nat
  anc : Nat → Nat → Bool

/-- Local state of one submodule working copy: its HEAD commit and the tip
of its local default branch. -/
structure LocalSub where
  head : Nat
  branchTip : Nat
deriving DecidableEq

/-- Local state of the superproject working copy: HEAD commit, the local
default branch's tip, and the submodule working copies keyed by path. -/
structure LocalRepo where
  head : Nat
  branchTip : Nat
  subs : List (String × LocalSub)
deriving DecidableEq

/-- Test whether the first character list is a leading segment of the
second. -/
def segStarts : List Char → List Char → Bool
  | [], _ => true
  | _ :: _, [] => false
  | c :: cs, d :: ds => c = d && segStarts cs ds

/-- Test whether the first character list occurs contiguously inside the
second. -/
def segIn (needle hay : List Char) : Bool :=
  match hay with
  | [] => needle.isEmpty
  | _ :: t => segStarts needle hay || segIn needle t

/-- Substring test used to model awk's `$2 ~ /name/` filter (for names
without regex metacharacters, `~` is a substring match; the empty pattern
matches every line). -/
def strContains (hay needle : String) : Bool :=
  segIn needle.data hay.data

/-- Semantics of `git pull --ff-only` on a branch at commit `cur` against a
remote tip: up to date (no change), fast-forward (move to the tip), already
ahead (no change), or diverged (the command exits non-zero). -/
def pullFF (w : World) (cur tip : Nat) : Option Nat :=
  if cur = tip then some cur
  else if w.anc cur tip then some tip
  else if w.anc tip cur then some cur
  else none

/-- Effect of the reset-and-pull compound command on the superproject:
`git checkout --force <default>` moves HEAD to the local default branch,
then `git pull --ff-only --force --prune --tags` fast-forwards it. -/
def resetPullSuper (w : World) (r : LocalRepo) : Except SyncError LocalRepo :=
  match pullFF w r.branchTip w.remote.tip with
  | some b => .ok { head := b, branchTip := b, subs := r.subs }
  | none => .error (.processFailure .resetPull)

/-- Effect of `git submodule update --init --recursive` on one submodule
path: set its HEAD to the gitlink commit the superproject's current HEAD
records; a not-yet-initialized submodule is cloned first, which creates its
local default branch at the submodule remote's tip. -/
def subUpdateOne (w : World) (r : LocalRepo) (p : String) (rem : RemoteRepo) : LocalSub :=
  match List.lookup p r.subs with
  | some s => { head := w.recorded r.head p, branchTip := s.branchTip }
  | none => { head := w.recorded r.head p, branchTip := rem.tip }

/-- Effect of `git submodule update --init --recursive` on the checkout. -/
def submoduleUpdate (w : World) (r : LocalRepo) : LocalRepo :=
  { r with subs := w.subs.map (fun pr => (pr.1, subUpdateOne w r pr.1 pr.2)) }

/-- Effect of the reset-and-pull compound command inside one submodule
(run by `git submodule foreach --recursive`); `none` when its pull cannot
fast-forward. -/
def resetPullSub (w : World) (rem : RemoteRepo) (s : LocalSub) : Option LocalSub :=
  match pullFF w s.branchTip rem.tip with
  | some b => some { head := b, branchTip := b }
  | none => none

/-- Effect of `git submodule foreach --recursive '<reset-and-pull>'`: the
reset-and-pull runs in every submodule working copy in order; the first
failing pull aborts the foreach command with a non-zero exit. -/
def foreachSubs (w : World) : List (String × LocalSub) → Except SyncError (List (String × LocalSub))
  | [] => .ok []
  | (p, s) :: rest =>
    match List.lookup p w.subs with
    | some rem =>
      match resetPullSub w rem s with
      | some s' =>
        match foreachSubs w rest with
        | .ok rest' => .ok ((p, s') :: rest')
        | .error e => .error e
      | none => .error (.processFailure .foreachResetPull)
    | none =>
      match foreachSubs w rest with
      | .ok rest' => .ok ((p, s) :: rest')
      | .error e => .error e

/-- Effect of `git checkout <label>` in the superproject: HEAD moves to the
commit the label resolves to; an unknown label exits non-zero.  Submodule
working copies are not touched. -/
def checkoutLabel (w : World) (r : LocalRepo) (v : String) : Except SyncError LocalRepo :=
  match List.lookup v w.remote.refs with
  | some c => .ok { r with head := c }
  | none => .error (.processFailure (.checkout v))

/-- The submodule paths whose name the awk filter `$2 ~ /name/` matches, in
`git submodule status` order (the order of the local submodule list). -/
def matchingPaths (subs : List (String × LocalSub)) (name : String) : List String :=
  (subs.map Prod.fst).filter (fun p => strContains p name)

/-- The same matching computed against the submodule paths of the world
(the local list always carries exactly these paths after an update). -/
def matchW (w : World) (name : String) : List String :=
  (w.subs.map Prod.fst).filter (fun p => strContains p name)

/-- Replace the (first) entry for path `p` in a submodule list. -/
def setSub : List (String × LocalSub) → String → LocalSub → List (String × LocalSub)
  | [], _, _ => []
  | (q, t) :: rest, p, s => if q = p then (p, s) :: rest else (q, t) :: setSub rest p s

/-- Pinning one named submodule (install.py lines 713-719): resolve the
path by piping `git submodule status` through awk, then run
`git -C <output> checkout <label>`.  With exactly one match the checkout
runs in that submodule.  With zero matches the output is empty, so the
shell word-splits `git -C  checkout <label>` into `git -C checkout <label>`
and git fails to change into a directory named `checkout`; with several
matches the output embeds a newline, which splits the shell script into two
broken commands.  Both malformed cases exit non-zero. -/
def pinSub (w : World) (r : LocalRepo) (name ver : String) : List Cmd × Except SyncError LocalRepo :=
  match matchingPaths r.subs name with
  | [p] =>
    match List.lookup p w.subs, List.lookup p r.subs with
    | some rem, some s =>
      match List.lookup ver rem.refs with
      | some c =>
        ([.submoduleStatusAwk name, .gitCcheckout p ver],
         .ok { r with subs := setSub r.subs p { s with head := c } })
      | none =>
        ([.submoduleStatusAwk name, .gitCcheckout p ver],
         .error (.processFailure (.gitCcheckout p ver)))
    | _, _ =>
      ([.submoduleStatusAwk name, .gitCcheckout p ver],
       .error (.processFailure (.gitCcheckout p ver)))
  | ps =>
    ([.submoduleStatusAwk name,
      .gitCcheckout (String.intercalate "\n" ps) ver],
     .error (.processFailure (.gitCcheckout (String.intercalate "\n" ps) ver)))

/-- The submodule-pinning loop of `_update_code`: entries with a `None`
label are skipped; the first failing pin raises out of the loop (the loop
body calls `_run_command`, i.e. `check_output`, which raises on a non-zero
exit), so later entries are not reached. -/
def pinSubs (w : World) (r : LocalRepo) : List (String × Option String) → List Cmd × Except SyncError LocalRepo
  | [] => ([], .ok r)
  | (_, none) :: rest => pinSubs w r rest
  | (name, some v) :: rest =>
    match pinSub w r name v with
    | (cmds, .ok r') =>
      match pinSubs w r' rest with
      | (cmds2, res2) => (cmds ++ cmds2, res2)
    | (cmds, .error e) => (cmds, .error e)

/-- Version-pinning tail of `_update_code` (lines 710-719): the optional
superproject checkout, then the submodule pins. -/
def pinPhase (w : World) (r : LocalRepo) (version : Option String)
    (subVers : List (String × Option String)) : List Cmd × Except SyncError LocalRepo :=
  match version with
  | none => pinSubs w r subVers
  | some v =>
    match checkoutLabel w r v with
    | .ok r' =>
      match pinSubs w r' subVers with
      | (cmds, res) => (Cmd.checkout v :: cmds, res)
    | .error e => ([Cmd.checkout v], .error e)

/-- Force-synchronize step of `_update_code` (lines 703-709): reset-and-pull
the superproject, `git submodule update --init --recursive`, then the
recursive foreach reset-and-pull. -/
def syncPhase (w : World) (r : LocalRepo) : List Cmd × Except SyncError LocalRepo :=
  match resetPullSuper w r with
  | .error e => ([.resetPull], .error e)
  | .ok r1 =>
    let r2 := submoduleUpdate w r1
    match foreachSubs w r2.subs with
    | .error e => ([.resetPull, .submoduleUpdateInit, .foreachResetPull], .error e)
    | .ok subs' =>
      ([.resetPull, .submoduleUpdateInit, .foreachResetPull], .ok { r2 with subs := subs' })

/-- The whole of `_update_code` (install.py lines 687-719). -/
def updateCode (w : World) (r : LocalRepo) (version : Option String)
    (subVers : List (String × Option String)) : List Cmd × Except SyncError LocalRepo :=
  match syncPhase w r with
  | (tr, .error e) => (tr, .error e)
  | (tr, .ok rs) =>
    match pinPhase w rs version subVers with
    | (tr2, res) => (tr ++ tr2, res)

/-- State produced by `git clone --recurse-submodules`: HEAD and the local
default branch at the remote tip, every submodule checked out (detached) at
the gitlink commit the tip records, each submodule's local default branch
created at its own remote's tip. -/
def cloneOf (w : World) : LocalRepo :=
  { head := w.remote.tip
    branchTip := w.remote.tip
    subs := w.subs.map (fun pr => (pr.1, { head := w.recorded w.remote.tip pr.1, branchTip := pr.2.tip })) }

/-- The whole of `_clone_repo` (install.py lines 484-504): install git when
absent, clone when the target path does not exist (`fs = none`), then run
`_update_code`.  `gitPresent` is the outcome of `shutil.which("git")`;
`fs` is the existing checkout at the target path, if any. -/
def cloneRepo (w : World) (gitPresent : Bool) (url target : String)
    (fs : Option LocalRepo) (version : Option String)
    (subVers : List (String × Option String)) : List Cmd × Except SyncError LocalRepo :=
  let pre : List Cmd := if gitPresent then [] else [.aptUpdate, .aptInstallGit]
  match fs with
  | some r =>
    match updateCode w r version subVers with
    | (cmds, res) => (pre ++ cmds, res)
  | none =>
    match updateCode w (cloneOf w) version subVers with
    | (cmds, res) => (pre ++ (Cmd.clone url target :: cmds), res)

/-- The three steps `_initial_install` runs, in source order. -/
inductive InstallStep where
  | publicStep : InstallStep
  | coreStep : InstallStep
  | infraStep : InstallStep
deriving DecidableEq

/-- Control flow of `_initial_install` (install.py lines 197-244): the three
installation steps are called sequentially with no exception handling, so an
exception raised by one step propagates and the later steps never run.  The
outcome of each step is abstracted as an `Except` value since the steps
themselves only shell out.  Returns the steps that were attempted and the
overall outcome. -/
def initialInstall (pub core infra : Except String Unit) : List InstallStep × Except String Unit :=
  match pub with
  | .error e => ([.publicStep], .error e)
  | .ok _ =>
    match core with
    | .error e => ([.publicStep, .coreStep], .error e)
    | .ok _ =>
      match infra with
      | .error e => ([.publicStep, .coreStep, .infraStep], .error e)
      | .ok _ => ([.publicStep, .coreStep, .infraStep], .ok ())

/-- Python dict insertion: replace the value of an existing key in place,
otherwise append the new pair. -/
def dictInsert (d : List (String × String)) (k v : String) : List (String × String) :=
  if (List.lookup k d).isSome then d.map (fun kv => if kv.1 = k then (k, v) else kv)
  else d ++ [(k, v)]

/-- The dict displayed by Python's `{**p, **e}`: start from `p` and insert
every entry of `e` in order, entries of `e` overriding on key collisions. -/
def dictUnion (p e : List (String × String)) : List (String × String) :=
  e.foldl (fun d kv => dictInsert d kv.1 kv.2) p

/-- Environment handling of `_run_command` (install.py lines 553-564): with
`env = None`, `check_output` is passed `env=None` and the child inherits the
process environment; otherwise it is passed `{**environ, **env}`.  Returns
the `env` argument given to `check_output` together with the process's own
environment after the call (which the function never writes to). -/
def runCommandEnv (processEnv : List (String × String)) (env : Option (List (String × String))) :
    Option (List (String × String)) × List (String × String) :=
  match env with
  | none => (none, processEnv)
  | some e => (some (dictUnion processEnv e), processEnv)

/-- The command-line settings record of `_PublicInstallerSettings`. -/
structure PublicInstallerSettings where
  public_version : String
  installer_version : Option String
  infra_version : Option String
  mode : Option String
  docker : Bool
  skip_dev : Bool
  password : Option String
  ib_gateway_docker : Bool
  gitlab : Bool
  gitlab_runner : Bool
  postgres : Bool
  pypi : Bool
  redis : Bool
  docker_registry : Bool
  force_recreate : Bool
deriving DecidableEq

/-- Equality of run outcomes is decidable. -/
instance instDecEqExcept {ε α : Type} [DecidableEq ε] [DecidableEq α] : DecidableEq (Except ε α)
  | .ok x, .ok y => decidable_of_iff (x = y) (by simp)
  | .ok x, .error f => isFalse (fun h => Except.noConfusion h)
  | .error e, .ok y => isFalse (fun h => Except.noConfusion h)
  | .error e, .error f => decidable_of_iff (e = f) (by simp)

/-- Keys and local default-branch tips of a submodule list (the data of a
checkout that survives pinning and determines the force-synchronize step). -/
def btMap (l : List (String × LocalSub)) : List (String × Nat) :=
  l.map (fun pr => (pr.1, pr.2.branchTip))

/-- Example remote side: one submodule `installer` whose own remote tip (7)
differs from the gitlink commit every superproject commit records for it
(5); the superproject label `v0` names commit 2. -/
def exWorld : World :=
  { remote := { defaultBranch := "master", tip := 1, refs := [("master", 1), ("v0", 2)] }
    subs := [("installer", { defaultBranch := "master", tip := 7, refs := [("master", 7), ("v1", 8)] })]
    recorded := fun _ _ => 5
    anc := fun _ _ => false }

/-- Example remote side with no submodules. -/
def exWorldNoSubs : World :=
  { remote := { defaultBranch := "master", tip := 1, refs := [("master", 1)] }
    subs := []
    recorded := fun _ _ => 0
    anc := fun _ _ => false }

/-- Example remote side with two submodules `alpha` and `beta`; `alpha` has
no label `v1`, `beta` has a label `v2`. -/
def exWorldTwoSubs : World :=
  { remote := { defaultBranch := "master", tip := 1, refs := [("master", 1)] }
    subs := [("alpha", { defaultBranch := "master", tip := 10, refs := [("master", 10)] }),
             ("beta", { defaultBranch := "master", tip := 20, refs := [("master", 20), ("v2", 21)] })]
    recorded := fun _ _ => 0
    anc := fun _ _ => false }

/-- Example remote side with two submodules whose paths `infra` and
`infra-mirror` both contain the name `infra`. -/
def exWorldAmbiguous : World :=
  { remote := { defaultBranch := "master", tip := 1, refs := [("master", 1)] }
    subs := [("infra", { defaultBranch := "master", tip := 30, refs := [("master", 30)] }),
             ("infra-mirror", { defaultBranch := "master", tip := 40, refs := [("master", 40)] })]
    recorded := fun _ _ => 0
    anc := fun _ _ => false }

/-- A synchronized checkout of `exWorldAmbiguous`. -/
def exRepoAmbiguous : LocalRepo :=
  { head := 1, branchTip := 1
    subs := [("infra", { head := 30, branchTip := 30 }),
             ("infra-mirror", { head := 40, branchTip := 40 })] }

/-- The checkout produced by synchronizing `exWorld` at version `v0` with
no label for `installer`: HEAD detached at commit 2, the submodule floated
to its remote tip 7. -/
def exFloatRepo : LocalRepo :=
  { head := 2, branchTip := 1, subs := [("installer", { head := 7, branchTip := 7 })] }

/-- The checkout produced by synchronizing `exWorld` at version `v0` with
`installer` pinned to `v1`: HEAD detached at commit 2, the submodule pinned
at commit 8. -/
def exPinnedRepo : LocalRepo :=
  { head := 2, branchTip := 1, subs := [("installer", { head := 8, branchTip := 7 })] }

/-- Example parsed settings record carrying a password. -/
def exSettings : PublicInstallerSettings :=
  { public_version := "0.5.53", installer_version := none, infra_version := none
    mode := some "password", docker := false, skip_dev := false
    password := some "hunter2", ib_gateway_docker := false, gitlab := false
    gitlab_runner := false, postgres := false, pypi := false, redis := false
    docker_registry := false, force_recreate := false }

/-- The tail of `_PublicInstallerSettings.parse` (install.py lines 121-123):
given the record produced by argument parsing, the settings logged are
`dataclasses.replace(settings, password="***")` and the settings returned to
the caller are the original record.  Returns (logged record, returned
record). -/
def PublicInstallerSettings.parse (s : PublicInstallerSettings) :
    PublicInstallerSettings × PublicInstallerSettings :=
  ({ s with password := some "***" }, s)

theorem lookup_cons_eq {α : Type} (k : String) (v : α) (l : List (String × α)) :
    List.lookup k ((k, v) :: l) = some v := by
  simp [List.lookup]

theorem lookup_cons_ne {α : Type} (a k : String) (v : α) (l : List (String × α)) (h : a ≠ k) :
    List.lookup a ((k, v) :: l) = List.lookup a l := by
  have hb : (a == k) = false := beq_eq_false_iff_ne.mpr h
  simp [List.lookup, hb]

theorem pinSubs_cons_none (w : World) (r : LocalRepo) (n : String)
    (rest : List (String × Option String)) :
    pinSubs w r ((n, none) :: rest) = pinSubs w r rest := rfl

theorem pinSubs_cons_ok (w : World) (r : LocalRepo) (n v : String)
    (rest : List (String × Option String)) (cmds : List Cmd) (r' : LocalRepo)
    (h : pinSub w r n v = (cmds, .ok r')) :
    pinSubs w r ((n, some v) :: rest) =
      (cmds ++ (pinSubs w r' rest).1, (pinSubs w r' rest).2) := by
  rcases hq : pinSubs w r' rest with ⟨a, b⟩
  simp [pinSubs, h, hq]

theorem pinSubs_cons_err (w : World) (r : LocalRepo) (n v : String)
    (rest : List (String × Option String)) (cmds : List Cmd) (e : SyncError)
    (h : pinSub w r n v = (cmds, .error e)) :
    pinSubs w r ((n, some v) :: rest) = (cmds, .error e) := by
  simp [pinSubs, h]

theorem pinPhase_none (w : World) (r : LocalRepo) (svs : List (String × Option String)) :
    pinPhase w r none svs = pinSubs w r svs := rfl

theorem pinPhase_some_ok (w : World) (r : LocalRepo) (v : String)
    (svs : List (String × Option String)) (r' : LocalRepo)
    (h : checkoutLabel w r v = .ok r') :
    pinPhase w r (some v) svs =
      (Cmd.checkout v :: (pinSubs w r' svs).1, (pinSubs w r' svs).2) := by
  rcases hq : pinSubs w r' svs with ⟨a, b⟩
  simp [pinPhase, h, hq]

theorem pinPhase_some_err (w : World) (r : LocalRepo) (v : String)
    (svs : List (String × Option String)) (e : SyncError)
    (h : checkoutLabel w r v = .error e) :
    pinPhase w r (some v) svs = ([Cmd.checkout v], .error e) := by
  simp [pinPhase, h]

theorem syncPhase_reset_err (w : World) (r : LocalRepo) (e : SyncError)
    (h : resetPullSuper w r = .error e) :
    syncPhase w r = ([Cmd.resetPull], .error e) := by
  simp [syncPhase, h]

theorem syncPhase_foreach_err (w : World) (r : LocalRepo) (r1 : LocalRepo) (e : SyncError)
    (h1 : resetPullSuper w r = .ok r1)
    (h2 : foreachSubs w (submoduleUpdate w r1).subs = .error e) :
    syncPhase w r = ([Cmd.resetPull, Cmd.submoduleUpdateInit, Cmd.foreachResetPull], .error e) := by
  simp [syncPhase, h1, h2]

theorem syncPhase_ok_eq (w : World) (r : LocalRepo) (r1 : LocalRepo)
    (subs' : List (String × LocalSub))
    (h1 : resetPullSuper w r = .ok r1)
    (h2 : foreachSubs w (submoduleUpdate w r1).subs = .ok subs') :
    syncPhase w r = ([Cmd.resetPull, Cmd.submoduleUpdateInit, Cmd.foreachResetPull],
      .ok { head := r1.head, branchTip := r1.branchTip, subs := subs' }) := by
  have h2' : foreachSubs w (List.map (fun pr => (pr.1, subUpdateOne w r1 pr.1 pr.2)) w.subs) =
      .ok subs' := by simpa [submoduleUpdate] using h2
  simp [syncPhase, h1, h2', submoduleUpdate]

theorem updateCode_sync_err (w : World) (r : LocalRepo) (version : Option String)
    (subVers : List (String × Option String)) (tr : List Cmd) (e : SyncError)
    (h : syncPhase w r = (tr, .error e)) :
    updateCode w r version subVers = (tr, .error e) := by
  simp [updateCode, h]

theorem updateCode_sync_ok (w : World) (r : LocalRepo) (version : Option String)
    (subVers : List (String × Option String)) (tr : List Cmd) (rs : LocalRepo)
    (h : syncPhase w r = (tr, .ok rs)) :
    updateCode w r version subVers =
      (tr ++ (pinPhase w rs version subVers).1, (pinPhase w rs version subVers).2) := by
  rcases hp : pinPhase w rs version subVers with ⟨a, b⟩
  simp [updateCode, h, hp]

theorem cloneRepo_some (w : World) (g : Bool) (url target : String) (r : LocalRepo)
    (version : Option String) (subVers : List (String × Option String)) :
    cloneRepo w g url target (some r) version subVers =
      ((if g then ([] : List Cmd) else [Cmd.aptUpdate, Cmd.aptInstallGit]) ++
         (updateCode w r version subVers).1,
       (updateCode w r version subVers).2) := by
  rcases hu : updateCode w r version subVers with ⟨a, b⟩
  simp [cloneRepo, hu]

theorem cloneRepo_none (w : World) (g : Bool) (url target : String)
    (version : Option String) (subVers : List (String × Option String)) :
    cloneRepo w g url target none version subVers =
      ((if g then ([] : List Cmd) else [Cmd.aptUpdate, Cmd.aptInstallGit]) ++
         Cmd.clone url target :: (updateCode w (cloneOf w) version subVers).1,
       (updateCode w (cloneOf w) version subVers).2) := by
  rcases hu : updateCode w (cloneOf w) version subVers with ⟨a, b⟩
  simp [cloneRepo, hu]

theorem pinSub_cmds_eq (w : World) (r : LocalRepo) (n v : String) :
    ∃ pl, (pinSub w r n v).1 = [Cmd.submoduleStatusAwk n, Cmd.gitCcheckout pl v] := by
  rcases hm : matchingPaths r.subs n with _ | ⟨p, _ | ⟨q, t⟩⟩
  · exact ⟨String.intercalate "\n" [], by simp [pinSub, hm]⟩
  · rcases hw : List.lookup p w.subs with _ | rem
    · exact ⟨p, by simp [pinSub, hm, hw]⟩
    · rcases hr2 : List.lookup p r.subs with _ | s
      · exact ⟨p, by simp [pinSub, hm, hw, hr2]⟩
      · rcases hv : List.lookup v rem.refs with _ | c₀
        · exact ⟨p, by simp [pinSub, hm, hw, hr2, hv]⟩
        · exact ⟨p, by simp [pinSub, hm, hw, hr2, hv]⟩
  · exact ⟨String.intercalate "\n" (p :: q :: t), by simp [pinSub, hm]⟩

theorem pinSub_cmds_shape (w : World) (r : LocalRepo) (n v : String) :
    ∀ c ∈ (pinSub w r n v).1,
      c = Cmd.submoduleStatusAwk n ∨ ∃ p l, c = Cmd.gitCcheckout p l := by
  obtain ⟨pl, hpl⟩ := pinSub_cmds_eq w r n v
  rw [hpl]
  intro c hc
  simp only [List.mem_cons, List.not_mem_nil, or_false] at hc
  rcases hc with rfl | rfl
  · exact Or.inl rfl
  · exact Or.inr ⟨pl, v, rfl⟩

theorem pinSubs_cmds_shape (w : World) (r : LocalRepo) (svs : List (String × Option String)) :
    ∀ c ∈ (pinSubs w r svs).1,
      (∃ n, c = Cmd.submoduleStatusAwk n) ∨ ∃ p l, c = Cmd.gitCcheckout p l := by
  induction svs generalizing r with
  | nil => intro c hc; cases hc
  | cons hd rest ih =>
    rcases hd with ⟨n, _ | v⟩
    · intro c hc
      rw [pinSubs_cons_none] at hc
      exact ih r c hc
    · rcases hp : pinSub w r n v with ⟨cmds, res⟩
      have hcmds : ∀ c ∈ cmds, c = Cmd.submoduleStatusAwk n ∨ ∃ p l, c = Cmd.gitCcheckout p l := by
        have := pinSub_cmds_shape w r n v
        rw [hp] at this
        exact this
      rcases res with e | r'
      · intro c hc
        rw [pinSubs_cons_err w r n v rest cmds e hp] at hc
        rcases hcmds c hc with h | h
        · exact Or.inl ⟨_, h⟩
        · exact Or.inr h
      · intro c hc
        rw [pinSubs_cons_ok w r n v rest cmds r' hp] at hc
        simp only [List.mem_append] at hc
        rcases hc with hc | hc
        · rcases hcmds c hc with h | h
          · exact Or.inl ⟨_, h⟩
          · exact Or.inr h
        · exact ih r' c hc

theorem pinPhase_cmds_shape (w : World) (r : LocalRepo) (version : Option String)
    (svs : List (String × Option String)) :
    ∀ c ∈ (pinPhase w r version svs).1,
      (∃ v, c = Cmd.checkout v) ∨ (∃ n, c = Cmd.submoduleStatusAwk n) ∨
        ∃ p l, c = Cmd.gitCcheckout p l := by
  rcases version with _ | v
  · intro c hc
    rw [pinPhase_none] at hc
    rcases pinSubs_cmds_shape w r svs c hc with h | h
    · exact Or.inr (Or.inl h)
    · exact Or.inr (Or.inr h)
  · rcases hck : checkoutLabel w r v with e | r'
    · intro c hc
      rw [pinPhase_some_err w r v svs e hck] at hc
      simp only [List.mem_singleton] at hc
      exact Or.inl ⟨v, hc⟩
    · intro c hc
      rw [pinPhase_some_ok w r v svs r' hck] at hc
      simp only [List.mem_cons] at hc
      rcases hc with rfl | hc
      · exact Or.inl ⟨v, rfl⟩
      · rcases pinSubs_cmds_shape w r' svs c hc with h | h
        · exact Or.inr (Or.inl h)
        · exact Or.inr (Or.inr h)

theorem updateCode_trace_shape (w : World) (r : LocalRepo) (version : Option String)
    (subVers : List (String × Option String)) :
    (updateCode w r version subVers).1 = [Cmd.resetPull] ∨
    ∃ rest, (updateCode w r version subVers).1 =
        Cmd.resetPull :: Cmd.submoduleUpdateInit :: Cmd.foreachResetPull :: rest ∧
      ∀ c ∈ rest, (∃ v, c = Cmd.checkout v) ∨ (∃ n, c = Cmd.submoduleStatusAwk n) ∨
        ∃ p l, c = Cmd.gitCcheckout p l := by
  rcases hr : resetPullSuper w r with e | r1
  · left
    rw [updateCode_sync_err w r version subVers _ _ (syncPhase_reset_err w r e hr)]
  · rcases hf : foreachSubs w (submoduleUpdate w r1).subs with e | subs'
    · right
      refine ⟨[], ?_, by intro c hc; cases hc⟩
      rw [updateCode_sync_err w r version subVers _ _ (syncPhase_foreach_err w r r1 e hr hf)]
    · right
      refine ⟨(pinPhase w ⟨r1.head, r1.branchTip, subs'⟩ version subVers).1, ?_, ?_⟩
      · rw [updateCode_sync_ok w r version subVers _ _ (syncPhase_ok_eq w r r1 subs' hr hf)]
        rfl
      · exact pinPhase_cmds_shape w _ version subVers

theorem updateCode_trace_kinds (w : World) (r : LocalRepo) (version : Option String)
    (subVers : List (String × Option String)) :
    ∀ c ∈ (updateCode w r version subVers).1, c.isApt = false ∧ c.isClone = false := by
  intro c hc
  rcases updateCode_trace_shape w r version subVers with h | ⟨rest, h, hrest⟩
  · rw [h] at hc
    simp only [List.mem_singleton] at hc
    subst hc
    exact ⟨rfl, rfl⟩
  · rw [h] at hc
    simp only [List.mem_cons] at hc
    rcases hc with rfl | rfl | rfl | hc
    · exact ⟨rfl, rfl⟩
    · exact ⟨rfl, rfl⟩
    · exact ⟨rfl, rfl⟩
    · rcases hrest c hc with ⟨v, rfl⟩ | ⟨n, rfl⟩ | ⟨p, l, rfl⟩ <;> exact ⟨rfl, rfl⟩

/-- Claim C3 (confirmed): every call to `_update_code` issues, in this exact
order, (1) the forced checkout of the remote default branch (derived from
`refs/remotes/origin/HEAD` with the `origin/` prefixed stripped) combined
with the fast-forward-only `--force --prune --tags` pull, (2)
`git submodule update --init --recursive`, (3) the same reset-and-pull
repeated recursively in every submodule via
`git submodule foreach --recursive`; any version checkout command comes
only after all three (the first disjunct covers a run aborted by the first
command failing). -/
theorem update_code_command_order (w : World) (r : LocalRepo) (version : Option String)
    (subVers : List (String × Option String)) :
    Cmd.resetPull.render =
      "git checkout --force $(git symbolic-ref refs/remotes/origin/HEAD --short | sed ''s#origin/##'') && git pull --ff-only --force --prune --tags" ∧
    Cmd.submoduleUpdateInit.render = "git submodule update --init --recursive" ∧
    Cmd.foreachResetPull.render =
      "git submodule foreach --recursive '" ++ Cmd.resetPull.render ++ "'" ∧
    ((updateCode w r version subVers).1 = [Cmd.resetPull] ∨
     ∃ rest, (updateCode w r version subVers).1 =
         Cmd.resetPull :: Cmd.submoduleUpdateInit :: Cmd.foreachResetPull :: rest ∧
       ∀ c ∈ rest, (∃ v, c = Cmd.checkout v) ∨ (∃ n, c = Cmd.submoduleStatusAwk n) ∨
         ∃ p l, c = Cmd.gitCcheckout p l) :=
  ⟨rfl, rfl, rfl, updateCode_trace_shape w r version subVers⟩

theorem clone_not_in_updateCode (w : World) (r : LocalRepo) (version : Option String)
    (subVers : List (String × Option String)) (url target : String) :
    Cmd.clone url target ∉ (updateCode w r version subVers).1 := by
  intro hc
  have := (updateCode_trace_kinds w r version subVers _ hc).2
  simp [Cmd.isClone] at this

/-- Claim C4 (confirmed): `_clone_repo` issues the recursive clone command
exactly when the local path does not exist (`fs = none`); on an existing
checkout no clone command appears in the trace and the call is the preflight
followed directly by `_update_code`. -/
theorem clone_iff_absent (w : World) (g : Bool) (url target : String)
    (fs : Option LocalRepo) (version : Option String)
    (subVers : List (String × Option String)) :
    (Cmd.clone url target ∈ (cloneRepo w g url target fs version subVers).1 ↔ fs = none) ∧
    (∀ r, fs = some r →
      cloneRepo w g url target fs version subVers =
        ((if g then ([] : List Cmd) else [Cmd.aptUpdate, Cmd.aptInstallGit]) ++
           (updateCode w r version subVers).1,
         (updateCode w r version subVers).2)) := by
  constructor
  · constructor
    · intro h
      rcases fs with _ | r
      · rfl
      · exfalso
        rw [cloneRepo_some] at h
        simp only [List.mem_append] at h
        rcases h with h | h
        · rcases g with _ | _ <;> simp_all
        · exact clone_not_in_updateCode w r version subVers url target h
    · intro h
      subst h
      rw [cloneRepo_none]
      simp
  · intro r h
    subst h
    exact cloneRepo_some w g url target r version subVers

/-- Witness for C4 at a concrete instance: with git present and an existing
checkout, the call is exactly the update step. -/
theorem clone_iff_absent_witness :
    cloneRepo exWorldNoSubs true "u" "t" (some { head := 1, branchTip := 1, subs := [] }) none [] =
      ((if true then ([] : List Cmd) else [Cmd.aptUpdate, Cmd.aptInstallGit]) ++
         (updateCode exWorldNoSubs { head := 1, branchTip := 1, subs := [] } none []).1,
       (updateCode exWorldNoSubs { head := 1, branchTip := 1, subs := [] } none []).2) :=
  (clone_iff_absent exWorldNoSubs true "u" "t"
    (some { head := 1, branchTip := 1, subs := [] }) none []).2
    { head := 1, branchTip := 1, subs := [] } rfl

/-- Claim C8 (confirmed): in every `_clone_repo` call, the two
package-manager commands (`apt -y update` then `apt install -y git`) open
the trace exactly when git is absent, and appear nowhere else; when git is
present no installation command is issued. -/
theorem git_preflight_commands (w : World) (g : Bool) (url target : String)
    (fs : Option LocalRepo) (version : Option String)
    (subVers : List (String × Option String)) :
    ∃ rest, (cloneRepo w g url target fs version subVers).1 =
        (if g then ([] : List Cmd) else [Cmd.aptUpdate, Cmd.aptInstallGit]) ++ rest ∧
      Cmd.aptUpdate ∉ rest ∧ Cmd.aptInstallGit ∉ rest := by
  have hupd : ∀ (r : LocalRepo), Cmd.aptUpdate ∉ (updateCode w r version subVers).1 ∧
      Cmd.aptInstallGit ∉ (updateCode w r version subVers).1 := by
    intro r
    constructor <;> intro hc <;>
      · have := (updateCode_trace_kinds w r version subVers _ hc).1
        simp [Cmd.isApt] at this
  rcases fs with _ | r
  · refine ⟨Cmd.clone url target :: (updateCode w (cloneOf w) version subVers).1, ?_, ?_, ?_⟩
    · rw [cloneRepo_none]
    · intro h
      simp only [List.mem_cons] at h
      rcases h with h | h
      · exact Cmd.noConfusion h
      · exact (hupd (cloneOf w)).1 h
    · intro h
      simp only [List.mem_cons] at h
      rcases h with h | h
      · exact Cmd.noConfusion h
      · exact (hupd (cloneOf w)).2 h
  · exact ⟨(updateCode w r version subVers).1, by rw [cloneRepo_some], (hupd r).1, (hupd r).2⟩

/-- Claim C7, counterexample: when the first step (`_public_install`) fails,
`_initial_install` attempts neither of the remaining steps and the failure
propagates — the failure is not logged-and-skipped. -/
theorem initial_install_not_isolating_cex :
    initialInstall (.error "public step failed") (.ok ()) (.ok ()) =
      ([InstallStep.publicStep], .error "public step failed") ∧
    InstallStep.coreStep ∉ (initialInstall (.error "public step failed") (.ok ()) (.ok ())).1 ∧
    (initialInstall (.error "public step failed") (.ok ()) (.ok ())).2 ≠ .ok () := by
  decide

/-- Claim C7 (corrected): `_initial_install` calls the three installation
steps sequentially with no exception handling, so the run succeeds only if
all three steps do, the core step is attempted only if the public step
succeeded, and the infra step only if both earlier steps succeeded; a
failure propagates instead of being logged and skipped. -/
theorem initial_install_aborts_on_failure (pub core infra : Except String Unit) :
    ((initialInstall pub core infra).2 = .ok () ↔
      pub = .ok () ∧ core = .ok () ∧ infra = .ok ()) ∧
    (InstallStep.coreStep ∈ (initialInstall pub core infra).1 ↔ pub = .ok ()) ∧
    (InstallStep.infraStep ∈ (initialInstall pub core infra).1 ↔
      pub = .ok () ∧ core = .ok ()) := by
  rcases pub with e | u
  · simp [initialInstall]
  · cases u
    rcases core with e | u
    · simp [initialInstall]
    · cases u
      rcases infra with e | u
      · simp [initialInstall]
      · cases u
        simp [initialInstall]

theorem lookup_none_of_not_mem {α : Type} (a : String) (l : List (String × α))
    (h : a ∉ l.map Prod.fst) : List.lookup a l = none := by
  induction l with
  | nil => rfl
  | cons kv rest ih =>
    rcases kv with ⟨k, v⟩
    simp only [List.map_cons, List.mem_cons] at h
    push_neg at h
    rw [lookup_cons_ne a k v rest h.1]
    exact ih h.2

theorem lookup_map_replace (d : List (String × String)) (k v a : String) :
    List.lookup a (d.map (fun kv => if kv.1 = k then (k, v) else kv)) =
      if a = k then (List.lookup k d).map (fun _ => v) else List.lookup a d := by
  induction d with
  | nil => by_cases ha : a = k <;> simp [List.lookup, ha]
  | cons hd rest ih =>
    rcases hd with ⟨q, wv⟩
    by_cases hq : q = k
    · subst hq
      have hhead : ((q, wv) :: rest).map (fun kv => if kv.1 = q then (q, v) else kv) =
          (q, v) :: rest.map (fun kv => if kv.1 = q then (q, v) else kv) := by
        simp
      rw [hhead]
      by_cases ha : a = q
      · subst ha
        rw [lookup_cons_eq, lookup_cons_eq, if_pos rfl]
        rfl
      · rw [lookup_cons_ne a q v _ ha, lookup_cons_ne a q wv rest ha, ih,
          if_neg ha, if_neg ha]
    · have hhead : ((q, wv) :: rest).map (fun kv => if kv.1 = k then (k, v) else kv) =
          (q, wv) :: rest.map (fun kv => if kv.1 = k then (k, v) else kv) := by
        simp [hq]
      rw [hhead]
      by_cases ha : a = q
      · subst ha
        rw [lookup_cons_eq, if_neg hq, lookup_cons_eq]
      · rw [lookup_cons_ne a q wv _ ha, lookup_cons_ne a q wv rest ha, ih]
        by_cases hak : a = k
        · rw [if_pos hak, if_pos hak, lookup_cons_ne k q wv rest (Ne.symm hq)]
        · rw [if_neg hak, if_neg hak]

theorem lookup_append_dict {α : Type} (a : String) (d l : List (String × α)) :
    List.lookup a (d ++ l) =
      (match List.lookup a d with | some v => some v | none => List.lookup a l) := by
  induction d with
  | nil => simp [List.lookup]
  | cons hd rest ih =>
    rcases hd with ⟨q, wv⟩
    by_cases ha : a = q
    · subst ha
      rw [List.cons_append, lookup_cons_eq, lookup_cons_eq]
    · rw [List.cons_append, lookup_cons_ne a q wv _ ha, lookup_cons_ne a q wv rest ha, ih]

theorem lookup_dictInsert (d : List (String × String)) (k v a : String) :
    List.lookup a (dictInsert d k v) = if a = k then some v else List.lookup a d := by
  unfold dictInsert
  by_cases hk : (List.lookup k d).isSome
  · rw [if_pos hk, lookup_map_replace]
    by_cases ha : a = k
    · rw [if_pos ha, if_pos ha]
      obtain ⟨v₀, hv₀⟩ := Option.isSome_iff_exists.mp hk
      rw [hv₀]
      rfl
    · rw [if_neg ha, if_neg ha]
  · rw [if_neg hk, lookup_append_dict]
    by_cases ha : a = k
    · subst ha
      rw [Option.not_isSome_iff_eq_none.mp hk, lookup_cons_eq, if_pos rfl]
    · rw [if_neg ha]
      rcases hd : List.lookup a d with _ | v₀
      · rw [lookup_cons_ne a k v [] ha]
        rfl
      · rfl

theorem lookup_dictUnion (p e : List (String × String)) (a : String)
    (hnd : (e.map Prod.fst).Nodup) :
    List.lookup a (dictUnion p e) =
      (match List.lookup a e with | some v => some v | none => List.lookup a p) := by
  induction e generalizing p with
  | nil => simp [dictUnion, List.lookup]
  | cons kv rest ih =>
    rcases kv with ⟨k, v⟩
    simp only [List.map_cons, List.nodup_cons] at hnd
    have hstep : dictUnion p ((k, v) :: rest) = dictUnion (dictInsert p k v) rest := rfl
    rw [hstep, ih (dictInsert p k v) hnd.2]
    by_cases ha : a = k
    · subst ha
      rw [lookup_none_of_not_mem a rest hnd.1, lookup_cons_eq]
      simp [lookup_dictInsert]
    · rw [lookup_cons_ne a k v rest ha]
      rcases h' : List.lookup a rest with _ | v₀
      · simp [lookup_dictInsert, ha]
      · rfl

/-- Claim C9 (confirmed): `_run_command` passes `check_output` `env=None`
(inherit the process environment) when no override is given, and otherwise
the dict `{**environ, **env}` — the process environment with the override
merged on top, override entries winning on key collisions — while the
process's own environment is returned unchanged in both cases. -/
theorem run_command_env_overlay (penv e : List (String × String)) (k : String)
    (hnd : (e.map Prod.fst).Nodup) :
    runCommandEnv penv none = (none, penv) ∧
    (runCommandEnv penv (some e)).2 = penv ∧
    (runCommandEnv penv (some e)).1 = some (dictUnion penv e) ∧
    List.lookup k (dictUnion penv e) =
      (match List.lookup k e with | some v => some v | none => List.lookup k penv) :=
  ⟨rfl, rfl, rfl, lookup_dictUnion penv e k hnd⟩

/-- Witness for C9 at a concrete instance: the override wins on the
colliding key and the inherited key is preserved. -/
theorem run_command_env_overlay_witness :
    List.lookup "PYTHONPATH"
        (dictUnion [("PATH", "/usr/bin"), ("PYTHONPATH", "x")] [("PYTHONPATH", "src")]) =
      some "src" ∧
    List.lookup "PATH"
        (dictUnion [("PATH", "/usr/bin"), ("PYTHONPATH", "x")] [("PYTHONPATH", "src")]) =
      some "/usr/bin" := by
  have h1 := run_command_env_overlay [("PATH", "/usr/bin"), ("PYTHONPATH", "x")]
    [("PYTHONPATH", "src")] "PYTHONPATH" (by decide)
  have h2 := run_command_env_overlay [("PATH", "/usr/bin"), ("PYTHONPATH", "x")]
    [("PYTHONPATH", "src")] "PATH" (by decide)
  refine ⟨?_, ?_⟩
  · rw [h1.2.2.2]
    decide
  · rw [h2.2.2.2]
    decide

/-- Claim C10 (confirmed): the settings record handed to the logger by
`parse` always carries `password = "***"` — hence never the supplied
password when that differs from the literal `***` — while the record
returned to the caller keeps the original password unchanged. -/
theorem settings_log_masks_password (s : PublicInstallerSettings) (p : String)
    (hp : s.password = some p) (hne : p ≠ "***") :
    (PublicInstallerSettings.parse s).1.password = some "***" ∧
    (PublicInstallerSettings.parse s).1.password ≠ some p ∧
    (PublicInstallerSettings.parse s).2 = s ∧
    (PublicInstallerSettings.parse s).2.password = some p := by
  refine ⟨rfl, ?_, rfl, hp⟩
  intro h
  exact hne (Option.some.inj h).symm

/-- Witness for C10 at a concrete settings record. -/
theorem settings_log_masks_password_witness :
    (PublicInstallerSettings.parse exSettings).1.password = some "***" ∧
    (PublicInstallerSettings.parse exSettings).1.password ≠ some "hunter2" ∧
    (PublicInstallerSettings.parse exSettings).2 = exSettings ∧
    (PublicInstallerSettings.parse exSettings).2.password = some "hunter2" :=
  settings_log_masks_password exSettings "hunter2" (by decide) (by decide)

/-- Claim C5, counterexample: with two labelled submodules `alpha` and
`beta`, a failing pin of `alpha` (its label `v1` does not exist) makes
`_update_code` raise — the trace never reaches the resolution command for
`beta`, so the failure is fatal and not isolated. -/
theorem pin_failure_not_isolated_cex :
    (updateCode exWorldTwoSubs (cloneOf exWorldTwoSubs) none
        [("alpha", some "v1"), ("beta", some "v2")]).2 =
      .error (.processFailure (Cmd.gitCcheckout "alpha" "v1")) ∧
    Cmd.submoduleStatusAwk "beta" ∉
      (updateCode exWorldTwoSubs (cloneOf exWorldTwoSubs) none
        [("alpha", some "v1"), ("beta", some "v2")]).1 := by
  decide

/-- Claim C5 (corrected): the pin loop is not failure-isolated — a failing
pin makes the loop return that error at once (the exception from
`check_output` propagates out of `_update_code`), and no command for any of
the remaining labelled submodules is ever issued. -/
theorem pin_failure_aborts_rest (w : World) (r : LocalRepo) (name v : String)
    (cmds : List Cmd) (e : SyncError) (rest : List (String × Option String))
    (h : pinSub w r name v = (cmds, .error e)) :
    pinSubs w r ((name, some v) :: rest) = (cmds, .error e) ∧
    ∀ n₂ v₂, (n₂, some v₂) ∈ rest → n₂ ≠ name → Cmd.submoduleStatusAwk n₂ ∉ cmds := by
  refine ⟨pinSubs_cons_err w r name v rest cmds e h, ?_⟩
  intro n₂ v₂ _ hne hc
  have hshape := pinSub_cmds_shape w r name v
  rw [h] at hshape
  rcases hshape _ hc with h1 | ⟨p, l, h1⟩
  · injection h1 with hh
    exact hne hh
  · exact Cmd.noConfusion h1

/-- Witness for C5 (corrected) at the concrete two-submodule instance. -/
theorem pin_failure_aborts_rest_witness :
    pinSubs exWorldTwoSubs
        { head := 1, branchTip := 1,
          subs := [("alpha", { head := 10, branchTip := 10 }),
                   ("beta", { head := 20, branchTip := 20 })] }
        [("alpha", some "v1"), ("beta", some "v2")] =
      ([Cmd.submoduleStatusAwk "alpha", Cmd.gitCcheckout "alpha" "v1"],
       .error (.processFailure (Cmd.gitCcheckout "alpha" "v1"))) :=
  (pin_failure_aborts_rest exWorldTwoSubs
    { head := 1, branchTip := 1,
      subs := [("alpha", { head := 10, branchTip := 10 }),
               ("beta", { head := 20, branchTip := 20 })] }
    "alpha" "v1"
    [Cmd.submoduleStatusAwk "alpha", Cmd.gitCcheckout "alpha" "v1"]
    (.processFailure (Cmd.gitCcheckout "alpha" "v1"))
    [("beta", some "v2")] (by decide)).1

/-- Claim C6, counterexample: the name `infra` matches the two submodule
paths `infra` and `infra-mirror`; the pin fails with a generic process
failure from the malformed `git -C` command (whose path argument embeds the
newline-joined matches), not with a `SubmoduleResolutionAmbiguous` error —
no such error exists in the code. -/
theorem ambiguous_pin_no_dedicated_error_cex :
    (pinSub exWorldAmbiguous exRepoAmbiguous "infra" "v9").2 =
      .error (.processFailure (Cmd.gitCcheckout "infra\ninfra-mirror" "v9")) ∧
    ∀ s, (pinSub exWorldAmbiguous exRepoAmbiguous "infra" "v9").2 ≠
      .error (.submoduleResolutionAmbiguous s) := by
  have heq : (pinSub exWorldAmbiguous exRepoAmbiguous "infra" "v9").2 =
      .error (.processFailure (Cmd.gitCcheckout "infra\ninfra-mirror" "v9")) := by decide
  refine ⟨heq, fun s h => ?_⟩
  rw [heq] at h
  exact SyncError.noConfusion (Except.error.inj h)

/-- Claim C6 (corrected): when the substring match resolves to zero or to
more than one submodule path, the pin never silently picks a path — it
fails — but the failure is a generic process failure (the
`CalledProcessError` of the malformed `git -C` command), not a dedicated
`SubmoduleResolutionAmbiguous` error. -/
theorem ambiguous_pin_generic_failure (w : World) (r : LocalRepo) (name v : String)
    (h : (matchingPaths r.subs name).length ≠ 1) :
    (∀ r', (pinSub w r name v).2 ≠ .ok r') ∧
    ∃ c, (pinSub w r name v).2 = .error (.processFailure c) := by
  rcases hm : matchingPaths r.subs name with _ | ⟨p, _ | ⟨q, t⟩⟩
  · have heq : (pinSub w r name v).2 =
        .error (.processFailure (Cmd.gitCcheckout (String.intercalate "\n" []) v)) := by
      simp [pinSub, hm]
    exact ⟨fun r' hr' => Except.noConfusion (heq ▸ hr'), ⟨_, heq⟩⟩
  · exact absurd (by rw [hm]; rfl) h
  · have heq : (pinSub w r name v).2 =
        .error (.processFailure (Cmd.gitCcheckout (String.intercalate "\n" (p :: q :: t)) v)) := by
      simp [pinSub, hm]
    exact ⟨fun r' hr' => Except.noConfusion (heq ▸ hr'), ⟨_, heq⟩⟩

/-- Witness for C6 (corrected) at the concrete ambiguous instance. -/
theorem ambiguous_pin_generic_failure_witness :
    ∃ c, (pinSub exWorldAmbiguous exRepoAmbiguous "infra" "v9").2 =
      .error (.processFailure c) :=
  (ambiguous_pin_generic_failure exWorldAmbiguous exRepoAmbiguous "infra" "v9" (by decide)).2

theorem pullFF_fix (w : World) (cur tip b : Nat) (h : pullFF w cur tip = some b) :
    pullFF w b tip = some b := by
  unfold pullFF at h ⊢
  by_cases h1 : cur = tip
  · rw [if_pos h1] at h
    injection h with hb
    subst hb
    rw [if_pos h1]
  · rw [if_neg h1] at h
    by_cases h2 : w.anc cur tip
    · rw [if_pos h2] at h
      injection h with hb
      subst hb
      rw [if_pos rfl]
    · rw [if_neg h2] at h
      by_cases h3 : w.anc tip cur
      · rw [if_pos h3] at h
        injection h with hb
        subst hb
        rw [if_neg h1, if_neg h2, if_pos h3]
      · rw [if_neg h3] at h
        cases h

theorem pullFF_result (w : World) (cur tip b : Nat) (h : pullFF w cur tip = some b) :
    b = tip ∨ w.anc tip b = true := by
  unfold pullFF at h
  by_cases h1 : cur = tip
  · rw [if_pos h1] at h
    injection h with hb
    subst hb
    exact Or.inl h1
  · rw [if_neg h1] at h
    by_cases h2 : w.anc cur tip
    · rw [if_pos h2] at h
      injection h with hb
      exact Or.inl hb.symm
    · rw [if_neg h2] at h
      by_cases h3 : w.anc tip cur
      · rw [if_pos h3] at h
        injection h with hb
        subst hb
        exact Or.inr h3
      · rw [if_neg h3] at h
        cases h

theorem lookup_of_nodup {α : Type} {l : List (String × α)} {p : String} {v : α}
    (hnd : (l.map Prod.fst).Nodup) (hm : (p, v) ∈ l) : List.lookup p l = some v := by
  induction l with
  | nil => cases hm
  | cons hd rest ih =>
    rcases hd with ⟨q, wv⟩
    simp only [List.map_cons, List.nodup_cons] at hnd
    rcases List.mem_cons.mp hm with he | hm'
    · injection he with h1 h2
      subst h1
      subst h2
      exact lookup_cons_eq p v rest
    · have hne : p ≠ q := by
        intro hpq
        subst hpq
        exact hnd.1 (List.mem_map_of_mem Prod.fst hm')
      rw [lookup_cons_ne p q wv rest hne]
      exact ih hnd.2 hm'

theorem lookup_mem {α : Type} {l : List (String × α)} {a : String} {b : α}
    (h : List.lookup a l = some b) : (a, b) ∈ l := by
  induction l with
  | nil => cases h
  | cons hd rest ih =>
    rcases hd with ⟨q, wv⟩
    by_cases ha : a = q
    · subst ha
      rw [lookup_cons_eq] at h
      injection h with h'
      subst h'
      exact List.mem_cons_self _ _
    · rw [lookup_cons_ne a q wv rest ha] at h
      exact List.mem_cons_of_mem _ (ih h)

theorem forall₂_conj {α β : Type} {P Q : α → β → Prop} {l : List α} {m : List β}
    (hp : List.Forall₂ P l m) (hq : List.Forall₂ Q l m) :
    List.Forall₂ (fun a b => P a b ∧ Q a b) l m := by
  induction hp with
  | nil => exact .nil
  | cons hab htl ih =>
    cases hq with
    | cons hab' htl' => exact .cons ⟨hab, hab'⟩ (ih htl')

theorem forall₂_mem_left {α β : Type} {P : α → β → Prop} {l : List α} {m : List β}
    (h : List.Forall₂ P l m) {a : α} (ha : a ∈ l) : ∃ b ∈ m, P a b := by
  induction h with
  | nil => cases ha
  | cons hab htl ih =>
    rcases List.mem_cons.mp ha with he | ha'
    · subst he
      exact ⟨_, List.mem_cons_self _ _, hab⟩
    · obtain ⟨b, hb, hpb⟩ := ih ha'
      exact ⟨b, List.mem_cons_of_mem _ hb, hpb⟩

theorem forall₂_fst_map {α β γ : Type} (l : List (α × β)) (g : α × β → γ) :
    List.Forall₂ (fun pr qs => pr.1 = qs.1) l (l.map fun pr => (pr.1, g pr)) := by
  induction l with
  | nil => exact .nil
  | cons hd tl ih => exact .cons rfl ih

theorem forall₂_keys_eq {β γ : Type} {ws : List (String × β)} {out : List (String × γ)}
    (h : List.Forall₂ (fun pr qs => pr.1 = qs.1) ws out) :
    out.map Prod.fst = ws.map Prod.fst := by
  induction h with
  | nil => rfl
  | cons hab htl ih => simp [ih, hab]

theorem lookup_append_skip {α : Type} (a : String) (pre l : List (String × α))
    (h : ∀ kv ∈ pre, a ≠ kv.1) : List.lookup a (pre ++ l) = List.lookup a l := by
  induction pre with
  | nil => rfl
  | cons hd rest ih =>
    rcases hd with ⟨q, wv⟩
    rw [List.cons_append, lookup_cons_ne a q wv _ (h (q, wv) (List.mem_cons_self _ _))]
    exact ih (fun kv hkv => h kv (List.mem_cons_of_mem _ hkv))

theorem lookup_aligned_aux {β γ : Type} {ws : List (String × β)} {out : List (String × γ)}
    (h : List.Forall₂ (fun pr qs => pr.1 = qs.1) ws out)
    (hnd : (ws.map Prod.fst).Nodup) :
    ∀ pre : List (String × γ), (∀ pr ∈ ws, ∀ kv ∈ pre, pr.1 ≠ kv.1) →
      List.Forall₂ (fun pr qs => List.lookup pr.1 (pre ++ out) = some qs.2) ws out := by
  induction h with
  | nil => intro pre _; exact .nil
  | @cons pr qs ws' out' hab htl ih =>
    intro pre hpre
    rcases pr with ⟨pk, pv⟩
    rcases qs with ⟨qk, qv⟩
    have hk : pk = qk := hab
    simp only [List.map_cons, List.nodup_cons] at hnd
    constructor
    · have hskip : List.lookup pk (pre ++ (qk, qv) :: out') = List.lookup pk ((qk, qv) :: out') :=
        lookup_append_skip pk pre _ (fun kv hkv => hpre (pk, pv) (List.mem_cons_self _ _) kv hkv)
      exact hskip.trans (by rw [hk, lookup_cons_eq])
    · have hstep := ih hnd.2 (pre ++ [(qk, qv)]) ?_
      · have hassoc : pre ++ [(qk, qv)] ++ out' = pre ++ (qk, qv) :: out' := by
          simp
        rw [hassoc] at hstep
        exact hstep
      · intro pr' hpr' kv hkv
        rcases List.mem_append.mp hkv with hkv' | hkv'
        · exact hpre pr' (List.mem_cons_of_mem _ hpr') kv hkv'
        · simp only [List.mem_singleton] at hkv'
          subst hkv'
          intro hbad
          have hbad' : pr'.1 = qk := hbad
          apply hnd.1
          rw [hk, ← hbad']
          exact List.mem_map_of_mem Prod.fst hpr'

theorem lookup_aligned {β γ : Type} {ws : List (String × β)} {out : List (String × γ)}
    (h : List.Forall₂ (fun pr qs => pr.1 = qs.1) ws out)
    (hnd : (ws.map Prod.fst).Nodup) :
    List.Forall₂ (fun pr qs => List.lookup pr.1 out = some qs.2) ws out := by
  have := lookup_aligned_aux h hnd [] (fun _ _ _ hkv => absurd hkv (List.not_mem_nil _))
  simpa using this

theorem foreach_ok_forall₂ (w : World) {ws : List (String × RemoteRepo)}
    {ql : List (String × LocalSub)}
    (hkeys : List.Forall₂ (fun pr qs => pr.1 = qs.1) ws ql)
    (hlkw : ∀ pr ∈ ws, List.lookup pr.1 w.subs = some pr.2) :
    ∀ out, foreachSubs w ql = .ok out →
      List.Forall₂ (fun pr qs => pr.1 = qs.1 ∧ qs.2.head = qs.2.branchTip ∧
        pullFF w qs.2.branchTip pr.2.tip = some qs.2.branchTip) ws out := by
  induction hkeys with
  | nil =>
    intro out hok
    have hout : ([] : List (String × LocalSub)) = out := Except.ok.inj hok
    subst hout
    exact .nil
  | @cons pr qs ws' ql' hab htl ih =>
    intro out hok
    rcases pr with ⟨pk, prem⟩
    rcases qs with ⟨qk, qs2⟩
    have hk : pk = qk := hab
    subst hk
    have hlk : List.lookup pk w.subs = some prem := hlkw (pk, prem) (List.mem_cons_self _ _)
    simp only [foreachSubs, hlk] at hok
    rcases hrp : resetPullSub w prem qs2 with _ | s'
    · rw [hrp] at hok
      cases hok
    · rw [hrp] at hok
      rcases hf : foreachSubs w ql' with e | out'
      · rw [hf] at hok
        cases hok
      · rw [hf] at hok
        have hout : (pk, s') :: out' = out := Except.ok.inj hok
        subst hout
        have hs' : s'.head = s'.branchTip ∧ pullFF w s'.branchTip prem.tip = some s'.branchTip := by
          unfold resetPullSub at hrp
          rcases hpf : pullFF w qs2.branchTip prem.tip with _ | b
          · rw [hpf] at hrp
            cases hrp
          · rw [hpf] at hrp
            injection hrp with h'
            subst h'
            exact ⟨rfl, pullFF_fix w _ _ _ hpf⟩
        exact .cons ⟨rfl, hs'.1, hs'.2⟩
          (ih (fun pr h => hlkw pr (List.mem_cons_of_mem _ h)) out' hf)

theorem foreach_update_out (w : World) {ws : List (String × RemoteRepo)}
    {out : List (String × LocalSub)} (R : LocalRepo)
    (h₂ : List.Forall₂ (fun pr qs => pr.1 = qs.1 ∧ qs.2.head = qs.2.branchTip ∧
        pullFF w qs.2.branchTip pr.2.tip = some qs.2.branchTip) ws out)
    (hR : List.Forall₂ (fun pr qs => List.lookup pr.1 R.subs = some qs.2) ws out)
    (hlkw : ∀ pr ∈ ws, List.lookup pr.1 w.subs = some pr.2) :
    foreachSubs w (ws.map fun pr => (pr.1, subUpdateOne w R pr.1 pr.2)) = .ok out := by
  induction h₂ with
  | nil => rfl
  | @cons pr qs ws' out' hab htl ih =>
    cases hR with
    | cons hRh hRt =>
      rcases pr with ⟨pk, prem⟩
      rcases qs with ⟨qk, qs2⟩
      obtain ⟨hab1, hhb, hpf⟩ := hab
      have hk : pk = qk := hab1
      subst hk
      have hRh' : List.lookup pk R.subs = some qs2 := hRh
      have hupd : subUpdateOne w R pk prem =
          { head := w.recorded R.head pk, branchTip := qs2.branchTip } := by
        simp [subUpdateOne, hRh']
      have hw : List.lookup pk w.subs = some prem := hlkw (pk, prem) (List.mem_cons_self _ _)
      have hrp : resetPullSub w prem { head := w.recorded R.head pk, branchTip := qs2.branchTip } =
          some { head := qs2.branchTip, branchTip := qs2.branchTip } := by
        simp [resetPullSub, hpf]
      have hrest := ih hRt (fun pr h => hlkw pr (List.mem_cons_of_mem _ h))
      simp only [List.map_cons, foreachSubs, hupd, hw, hrp, hrest]
      rcases qs2 with ⟨qh, qb⟩
      have hq : qh = qb := hhb
      subst hq
      rfl

theorem lookup_btMap (l : List (String × LocalSub)) (a : String) :
    List.lookup a (btMap l) = (List.lookup a l).map (fun s => s.branchTip) := by
  induction l with
  | nil => rfl
  | cons hd rest ih =>
    rcases hd with ⟨q, t⟩
    by_cases ha : a = q
    · subst ha
      simp only [btMap, List.map_cons]
      rw [lookup_cons_eq, lookup_cons_eq]
      rfl
    · simp only [btMap, List.map_cons]
      rw [lookup_cons_ne a q _ _ ha, lookup_cons_ne a q t rest ha]
      simpa [btMap] using ih

theorem resetPullSuper_ok_inv (w : World) (r r1 : LocalRepo)
    (h : resetPullSuper w r = .ok r1) :
    pullFF w r.branchTip w.remote.tip = some r1.branchTip ∧
    r1.head = r1.branchTip ∧ r1.subs = r.subs := by
  unfold resetPullSuper at h
  rcases hpf : pullFF w r.branchTip w.remote.tip with _ | b
  · rw [hpf] at h
    cases h
  · rw [hpf] at h
    have h' : ({ head := b, branchTip := b, subs := r.subs } : LocalRepo) = r1 :=
      Except.ok.inj h
    subst h'
    exact ⟨rfl, rfl, rfl⟩

theorem syncPhase_ok_inv (w : World) (r : LocalRepo) (tr : List Cmd) (rs : LocalRepo)
    (hnd : (w.subs.map Prod.fst).Nodup)
    (h : syncPhase w r = (tr, .ok rs)) :
    tr = [Cmd.resetPull, Cmd.submoduleUpdateInit, Cmd.foreachResetPull] ∧
    rs.head = rs.branchTip ∧
    pullFF w rs.branchTip w.remote.tip = some rs.branchTip ∧
    List.Forall₂ (fun pr qs => pr.1 = qs.1 ∧ qs.2.head = qs.2.branchTip ∧
      pullFF w qs.2.branchTip pr.2.tip = some qs.2.branchTip) w.subs rs.subs := by
  rcases hr : resetPullSuper w r with e | r1
  · rw [syncPhase_reset_err w r e hr] at h
    exact Except.noConfusion (congrArg Prod.snd h)
  · rcases hf : foreachSubs w (submoduleUpdate w r1).subs with e | subs'
    · rw [syncPhase_foreach_err w r r1 e hr hf] at h
      exact Except.noConfusion (congrArg Prod.snd h)
    · rw [syncPhase_ok_eq w r r1 subs' hr hf] at h
      have htr : [Cmd.resetPull, Cmd.submoduleUpdateInit, Cmd.foreachResetPull] = tr :=
        congrArg Prod.fst h
      have hrs : ({ head := r1.head, branchTip := r1.branchTip, subs := subs' } : LocalRepo) = rs :=
        Except.ok.inj (congrArg Prod.snd h)
      obtain ⟨hpf, hhb, hsubs⟩ := resetPullSuper_ok_inv w r r1 hr
      have hlkw : ∀ pr ∈ w.subs, List.lookup pr.1 w.subs = some pr.2 :=
        fun pr hpr => lookup_of_nodup hnd hpr
      have hfa := foreach_ok_forall₂ w (forall₂_fst_map w.subs (fun pr => subUpdateOne w r1 pr.1 pr.2))
        hlkw subs' (by simpa [submoduleUpdate] using hf)
      subst hrs
      exact ⟨htr.symm, hhb, pullFF_fix w _ _ _ hpf, hfa⟩

theorem syncPhase_idem (w : World) (r : LocalRepo) (tr : List Cmd) (rs : LocalRepo)
    (hnd : (w.subs.map Prod.fst).Nodup)
    (h : syncPhase w r = (tr, .ok rs)) :
    syncPhase w rs = (tr, .ok rs) := by
  obtain ⟨htr, hhb, hpf, hsync⟩ := syncPhase_ok_inv w r tr rs hnd h
  have hlkw : ∀ pr ∈ w.subs, List.lookup pr.1 w.subs = some pr.2 :=
    fun pr hpr => lookup_of_nodup hnd hpr
  have hkeys : List.Forall₂ (fun (pr : String × RemoteRepo) (qs : String × LocalSub) =>
      pr.1 = qs.1) w.subs rs.subs :=
    List.Forall₂.imp (fun _ _ hab => hab.1) hsync
  have haligned := lookup_aligned hkeys hnd
  rcases rs with ⟨rh, rb, rsubs⟩
  have hhb' : rh = rb := hhb
  subst hhb'
  have hr : resetPullSuper w ⟨rh, rh, rsubs⟩ = .ok ⟨rh, rh, rsubs⟩ := by
    unfold resetPullSuper
    rw [hpf]
  have hfore : foreachSubs w (w.subs.map fun pr =>
      (pr.1, subUpdateOne w ⟨rh, rh, rsubs⟩ pr.1 pr.2)) = .ok rsubs :=
    foreach_update_out w ⟨rh, rh, rsubs⟩ hsync haligned hlkw
  have hf' : foreachSubs w (submoduleUpdate w ⟨rh, rh, rsubs⟩).subs = .ok rsubs := by
    simpa [submoduleUpdate] using hfore
  rw [syncPhase_ok_eq w ⟨rh, rh, rsubs⟩ ⟨rh, rh, rsubs⟩ rsubs hr hf', htr]

theorem syncPhase_congr (w : World) (r r' : LocalRepo)
    (hb : r.branchTip = r'.branchTip) (hs : btMap r.subs = btMap r'.subs) :
    syncPhase w r = syncPhase w r' := by
  rcases hpf : pullFF w r'.branchTip w.remote.tip with _ | b
  · have e1 : resetPullSuper w r = .error (.processFailure .resetPull) := by
      unfold resetPullSuper
      rw [hb, hpf]
    have e2 : resetPullSuper w r' = .error (.processFailure .resetPull) := by
      unfold resetPullSuper
      rw [hpf]
    rw [syncPhase_reset_err w r _ e1, syncPhase_reset_err w r' _ e2]
  · have e1 : resetPullSuper w r = .ok ⟨b, b, r.subs⟩ := by
      unfold resetPullSuper
      rw [hb, hpf]
    have e2 : resetPullSuper w r' = .ok ⟨b, b, r'.subs⟩ := by
      unfold resetPullSuper
      rw [hpf]
    have hlook : ∀ p : String, List.lookup p (btMap r.subs) = List.lookup p (btMap r'.subs) := by
      intro p
      rw [hs]
    have hupd : ∀ pr : String × RemoteRepo,
        subUpdateOne w ⟨b, b, r.subs⟩ pr.1 pr.2 = subUpdateOne w ⟨b, b, r'.subs⟩ pr.1 pr.2 := by
      intro pr
      have hl := hlook pr.1
      rw [lookup_btMap, lookup_btMap] at hl
      unfold subUpdateOne
      rcases h1 : List.lookup pr.1 r.subs with _ | s <;>
        rcases h2 : List.lookup pr.1 r'.subs with _ | s'
      · rfl
      · rw [h1, h2] at hl
        cases hl
      · rw [h1, h2] at hl
        cases hl
      · rw [h1, h2] at hl
        injection hl with hl'
        simp [hl']
    have hsub : (submoduleUpdate w ⟨b, b, r.subs⟩).subs = (submoduleUpdate w ⟨b, b, r'.subs⟩).subs := by
      simp only [submoduleUpdate]
      exact List.map_congr_left (fun pr _ => by rw [hupd pr])
    rcases hf : foreachSubs w (submoduleUpdate w ⟨b, b, r'.subs⟩).subs with e | subs'
    · rw [syncPhase_foreach_err w r ⟨b, b, r.subs⟩ e e1 (by rw [hsub]; exact hf),
        syncPhase_foreach_err w r' ⟨b, b, r'.subs⟩ e e2 hf]
    · rw [syncPhase_ok_eq w r ⟨b, b, r.subs⟩ subs' e1 (by rw [hsub]; exact hf),
        syncPhase_ok_eq w r' ⟨b, b, r'.subs⟩ subs' e2 hf]

theorem keys_setSub (l : List (String × LocalSub)) (p : String) (s : LocalSub) :
    (setSub l p s).map Prod.fst = l.map Prod.fst := by
  induction l with
  | nil => rfl
  | cons hd rest ih =>
    rcases hd with ⟨q, t⟩
    by_cases hq : q = p
    · subst hq
      simp [setSub]
    · simp [setSub, hq, ih]

theorem lookup_setSub_self (l : List (String × LocalSub)) (p : String) (s t : LocalSub)
    (h : List.lookup p l = some t) : List.lookup p (setSub l p s) = some s := by
  induction l with
  | nil => cases h
  | cons hd rest ih =>
    rcases hd with ⟨q, t₀⟩
    by_cases hq : q = p
    · subst hq
      simp only [setSub, if_true]
      exact lookup_cons_eq q s rest
    · have hpq : p ≠ q := fun hh => hq hh.symm
      simp only [setSub, if_neg hq]
      rw [lookup_cons_ne p q t₀ _ hpq]
      rw [lookup_cons_ne p q t₀ rest hpq] at h
      exact ih h

theorem lookup_setSub_other (l : List (String × LocalSub)) (p a : String) (s : LocalSub)
    (h : a ≠ p) : List.lookup a (setSub l p s) = List.lookup a l := by
  induction l with
  | nil => rfl
  | cons hd rest ih =>
    rcases hd with ⟨q, t₀⟩
    by_cases hq : q = p
    · subst hq
      simp only [setSub, if_true]
      rw [lookup_cons_ne a q s rest h, lookup_cons_ne a q t₀ rest h]
    · simp only [setSub, if_neg hq]
      by_cases ha : a = q
      · subst ha
        rw [lookup_cons_eq, lookup_cons_eq]
      · rw [lookup_cons_ne a q t₀ _ ha, lookup_cons_ne a q t₀ rest ha]
        exact ih

theorem btMap_setSub (l : List (String × LocalSub)) (p : String) (c : Nat) (t : LocalSub)
    (h : List.lookup p l = some t) :
    btMap (setSub l p { head := c, branchTip := t.branchTip }) = btMap l := by
  induction l with
  | nil => cases h
  | cons hd rest ih =>
    rcases hd with ⟨q, t₀⟩
    by_cases hq : q = p
    · subst hq
      rw [lookup_cons_eq] at h
      injection h with h'
      subst h'
      simp [setSub, btMap]
    · have hpq : p ≠ q := fun hh => hq hh.symm
      rw [lookup_cons_ne p q t₀ rest hpq] at h
      simp only [setSub, if_neg hq, btMap, List.map_cons]
      have := ih h
      simp only [btMap] at this
      rw [this]

theorem matchingPaths_congr (l l' : List (String × LocalSub)) (n : String)
    (h : l.map Prod.fst = l'.map Prod.fst) : matchingPaths l n = matchingPaths l' n := by
  simp [matchingPaths, h]

theorem matchingPaths_eq_matchW (w : World) (l : List (String × LocalSub)) (n : String)
    (h : l.map Prod.fst = w.subs.map Prod.fst) : matchingPaths l n = matchW w n := by
  simp [matchingPaths, matchW, h]

theorem pinSub_ok_inv (w : World) (r : LocalRepo) (n v : String) (cmds : List Cmd)
    (r' : LocalRepo) (h : pinSub w r n v = (cmds, .ok r')) :
    ∃ p rem s c, matchingPaths r.subs n = [p] ∧ List.lookup p w.subs = some rem ∧
      List.lookup p r.subs = some s ∧ List.lookup v rem.refs = some c ∧
      cmds = [Cmd.submoduleStatusAwk n, Cmd.gitCcheckout p v] ∧
      r' = { r with subs := setSub r.subs p { head := c, branchTip := s.branchTip } } := by
  rcases hm : matchingPaths r.subs n with _ | ⟨p, _ | ⟨q, t⟩⟩
  · simp [pinSub, hm] at h
  · rcases hw : List.lookup p w.subs with _ | rem
    · simp [pinSub, hm, hw] at h
    · rcases hr2 : List.lookup p r.subs with _ | s
      · simp [pinSub, hm, hw, hr2] at h
      · rcases hv : List.lookup v rem.refs with _ | c
        · simp [pinSub, hm, hw, hr2, hv] at h
        · simp only [pinSub, hm, hw, hr2, hv] at h
          have h1 : [Cmd.submoduleStatusAwk n, Cmd.gitCcheckout p v] = cmds :=
            congrArg Prod.fst h
          have h2 := Except.ok.inj (congrArg Prod.snd h)
          exact ⟨p, rem, s, c, rfl, hw, hr2, hv, h1.symm, h2.symm⟩
  · simp [pinSub, hm] at h

theorem pinSubs_ok_inv (w : World) (svs : List (String × Option String)) :
    ∀ (r : LocalRepo) (tr : List Cmd) (r' : LocalRepo),
      pinSubs w r svs = (tr, .ok r') →
      r'.head = r.head ∧ r'.branchTip = r.branchTip ∧ btMap r'.subs = btMap r.subs := by
  induction svs with
  | nil =>
    intro r tr r' h
    have h2 : (Except.ok r : Except SyncError LocalRepo) = .ok r' := congrArg Prod.snd h
    have h3 : r = r' := Except.ok.inj h2
    subst h3
    exact ⟨rfl, rfl, rfl⟩
  | cons hd rest ih =>
    intro r tr r' h
    rcases hd with ⟨n, _ | v⟩
    · rw [pinSubs_cons_none] at h
      exact ih r tr r' h
    · rcases hp : pinSub w r n v with ⟨cmds, res⟩
      rcases res with e | r1
      · rw [pinSubs_cons_err w r n v rest cmds e hp] at h
        exact Except.noConfusion (congrArg Prod.snd h)
      · rw [pinSubs_cons_ok w r n v rest cmds r1 hp] at h
        rcases hq : pinSubs w r1 rest with ⟨tr2, res2⟩
        rw [hq] at h
        have h2 : res2 = .ok r' := congrArg Prod.snd h
        subst h2
        obtain ⟨hh, hb, hbt⟩ := ih r1 tr2 r' hq
        obtain ⟨p, rem, s, c, _, _, hr2, _, _, hr1⟩ := pinSub_ok_inv w r n v cmds r1 hp
        subst hr1
        refine ⟨hh, hb, hbt.trans ?_⟩
        exact btMap_setSub r.subs p c s hr2

theorem pinSubs_untouched (w : World) (svs : List (String × Option String)) (p : String) :
    ∀ (r : LocalRepo) (tr : List Cmd) (r' : LocalRepo),
      pinSubs w r svs = (tr, .ok r') →
      (∀ n v, (n, some v) ∈ svs → matchingPaths r.subs n ≠ [p]) →
      List.lookup p r'.subs = List.lookup p r.subs := by
  induction svs with
  | nil =>
    intro r tr r' h _
    have h3 : r = r' := Except.ok.inj (congrArg Prod.snd h)
    subst h3
    rfl
  | cons hd rest ih =>
    intro r tr r' h hno
    rcases hd with ⟨n, _ | v⟩
    · rw [pinSubs_cons_none] at h
      exact ih r tr r' h (fun n₂ v₂ hm => hno n₂ v₂ (List.mem_cons_of_mem _ hm))
    · rcases hp : pinSub w r n v with ⟨cmds, res⟩
      rcases res with e | r1
      · rw [pinSubs_cons_err w r n v rest cmds e hp] at h
        exact Except.noConfusion (congrArg Prod.snd h)
      · rw [pinSubs_cons_ok w r n v rest cmds r1 hp] at h
        rcases hq : pinSubs w r1 rest with ⟨tr2, res2⟩
        rw [hq] at h
        have h2 : res2 = .ok r' := congrArg Prod.snd h
        subst h2
        obtain ⟨p₀, rem, s, c, hm, _, hr2, _, _, hr1⟩ := pinSub_ok_inv w r n v cmds r1 hp
        have hp₀ : p₀ ≠ p := by
          intro he
          subst he
          exact hno n v (List.mem_cons_self _ _) hm
        have hkeys1 : r1.subs.map Prod.fst = r.subs.map Prod.fst := by
          subst hr1
          exact keys_setSub r.subs p₀ _
        have hstep : List.lookup p r1.subs = List.lookup p r.subs := by
          subst hr1
          exact lookup_setSub_other r.subs p₀ p _ (fun hh => hp₀ hh.symm)
        have htail := ih r1 tr2 r' hq (fun n₂ v₂ hm₂ => by
          rw [matchingPaths_congr r1.subs r.subs n₂ hkeys1]
          exact hno n₂ v₂ (List.mem_cons_of_mem _ hm₂))
        exact htail.trans hstep

theorem pinSubs_append_ok (w : World) (xs : List (String × Option String))
    (ys : List (String × Option String)) :
    ∀ (r : LocalRepo) (tr : List Cmd) (r' : LocalRepo),
      pinSubs w r (xs ++ ys) = (tr, .ok r') →
      ∃ t1 r1 t2, pinSubs w r xs = (t1, .ok r1) ∧ pinSubs w r1 ys = (t2, .ok r') ∧
        tr = t1 ++ t2 := by
  induction xs with
  | nil =>
    intro r tr r' h
    exact ⟨[], r, tr, rfl, h, rfl⟩
  | cons hd rest ih =>
    intro r tr r' h
    rcases hd with ⟨n, _ | v⟩
    · rw [List.cons_append, pinSubs_cons_none] at h
      obtain ⟨t1, r1, t2, h1, h2, h3⟩ := ih r tr r' h
      exact ⟨t1, r1, t2, by rw [pinSubs_cons_none]; exact h1, h2, h3⟩
    · rw [List.cons_append] at h
      rcases hp : pinSub w r n v with ⟨cmds, res⟩
      rcases res with e | r1
      · rw [pinSubs_cons_err w r n v (rest ++ ys) cmds e hp] at h
        exact Except.noConfusion (congrArg Prod.snd h)
      · rw [pinSubs_cons_ok w r n v (rest ++ ys) cmds r1 hp] at h
        rcases hq : pinSubs w r1 (rest ++ ys) with ⟨trq, resq⟩
        rw [hq] at h
        have h2 : resq = .ok r' := congrArg Prod.snd h
        subst h2
        have h1 : cmds ++ trq = tr := congrArg Prod.fst h
        obtain ⟨t1, r2, t2, hq1, hq2, hq3⟩ := ih r1 trq r' hq
        refine ⟨cmds ++ t1, r2, t2, ?_, hq2, ?_⟩
        · rw [pinSubs_cons_ok w r n v rest cmds r1 hp, hq1]
        · rw [← h1, hq3, List.append_assoc]

theorem checkoutLabel_ok_inv (w : World) (r : LocalRepo) (v : String) (r' : LocalRepo)
    (h : checkoutLabel w r v = .ok r') :
    ∃ c, List.lookup v w.remote.refs = some c ∧ r' = { r with head := c } := by
  unfold checkoutLabel at h
  rcases hl : List.lookup v w.remote.refs with _ | c
  · rw [hl] at h
    cases h
  · rw [hl] at h
    exact ⟨c, rfl, (Except.ok.inj h).symm⟩

theorem pinPhase_ok_inv (w : World) (rs : LocalRepo) (version : Option String)
    (svs : List (String × Option String)) (tr2 : List Cmd) (r1 : LocalRepo)
    (h : pinPhase w rs version svs = (tr2, .ok r1)) :
    r1.branchTip = rs.branchTip ∧ btMap r1.subs = btMap rs.subs := by
  rcases version with _ | v
  · rw [pinPhase_none] at h
    obtain ⟨_, hb, hbt⟩ := pinSubs_ok_inv w svs rs tr2 r1 h
    exact ⟨hb, hbt⟩
  · rcases hck : checkoutLabel w rs v with e | rMid
    · rw [pinPhase_some_err w rs v svs e hck] at h
      exact Except.noConfusion (congrArg Prod.snd h)
    · rw [pinPhase_some_ok w rs v svs rMid hck] at h
      rcases hq : pinSubs w rMid svs with ⟨trq, resq⟩
      rw [hq] at h
      have h2 : resq = .ok r1 := congrArg Prod.snd h
      subst h2
      obtain ⟨_, hb, hbt⟩ := pinSubs_ok_inv w svs rMid trq r1 hq
      obtain ⟨c, _, hmid⟩ := checkoutLabel_ok_inv w rs v rMid hck
      subst hmid
      exact ⟨hb, hbt⟩

theorem map_fst_btMap (l : List (String × LocalSub)) :
    (btMap l).map Prod.fst = l.map Prod.fst := by
  induction l with
  | nil => rfl
  | cons hd tl ih =>
    simp only [btMap, List.map_cons] at ih ⊢
    rw [ih]

/-- Claim C2 (confirmed): synchronization is idempotent — when a run of
`_clone_repo` on a target succeeds and leaves the checkout in state `r1`,
running it again on that checkout with the same requested versions and an
unchanged remote also succeeds and leaves the checkout in exactly the same
state (same HEAD commit and same submodule commits). -/
theorem synchronize_idempotent (w : World) (g : Bool) (url target : String)
    (fs : Option LocalRepo) (version : Option String)
    (subVers : List (String × Option String)) (r1 : LocalRepo)
    (hnd : (w.subs.map Prod.fst).Nodup)
    (h : (cloneRepo w g url target fs version subVers).2 = .ok r1) :
    (cloneRepo w g url target (some r1) version subVers).2 = .ok r1 := by
  obtain ⟨r₀, hupd⟩ : ∃ r₀, (updateCode w r₀ version subVers).2 = .ok r1 := by
    rcases fs with _ | r
    · refine ⟨cloneOf w, ?_⟩
      rw [cloneRepo_none] at h
      exact h
    · refine ⟨r, ?_⟩
      rw [cloneRepo_some] at h
      exact h
  rcases hs : syncPhase w r₀ with ⟨tr, res⟩
  rcases res with e | rs
  · rw [updateCode_sync_err w r₀ version subVers tr e hs] at hupd
    exact Except.noConfusion hupd
  · rw [updateCode_sync_ok w r₀ version subVers tr rs hs] at hupd
    have hpin : (pinPhase w rs version subVers).2 = .ok r1 := hupd
    rcases hp : pinPhase w rs version subVers with ⟨tr2, res2⟩
    rw [hp] at hpin
    have hres2 : res2 = .ok r1 := hpin
    subst hres2
    obtain ⟨hb, hbt⟩ := pinPhase_ok_inv w rs version subVers tr2 r1 hp
    have hcongr := syncPhase_congr w r1 rs hb hbt
    have hidem := syncPhase_idem w r₀ tr rs hnd hs
    have hs1 : syncPhase w r1 = (tr, .ok rs) := hcongr.trans hidem
    rw [cloneRepo_some]
    show (updateCode w r1 version subVers).2 = .ok r1
    rw [updateCode_sync_ok w r1 version subVers tr rs hs1]
    show (pinPhase w rs version subVers).2 = .ok r1
    rw [hp]

/-- Witness for C2 at a concrete instance: a fresh clone followed by a
second synchronization of the resulting checkout reproduces it exactly. -/
theorem synchronize_idempotent_witness :
    (cloneRepo exWorldNoSubs true "u" "t"
        (some { head := 1, branchTip := 1, subs := [] }) none []).2 =
      .ok { head := 1, branchTip := 1, subs := [] } :=
  synchronize_idempotent exWorldNoSubs true "u" "t" none none []
    { head := 1, branchTip := 1, subs := [] } (by decide) (by decide)

/-- Claim C1, counterexample: in a remote world where every superproject
commit records gitlink commit 5 for the submodule `installer` but the
submodule's own remote default branch tip is 7, a successful synchronization
with requested version `v0` and no label for `installer` leaves the
submodule HEAD at 7 (its remote tip, the result of the recursive
reset-and-pull), not at the recorded commit 5 — refuting the clause that a
submodule whose requested label is None ends at the commit recorded by the
superproject. -/
theorem clone_repo_recorded_submodule_cex :
    ((cloneRepo exWorld true "u" "t" none (some "v0") [("installer", none)]).2 =
      .ok exFloatRepo) ∧
    ¬ (∀ st, (cloneRepo exWorld true "u" "t" none (some "v0") [("installer", none)]).2 =
          .ok st →
        ∀ p s, List.lookup p st.subs = some s → s.head = exWorld.recorded st.head p) := by
  constructor
  · decide
  · intro hall
    have hbad := hall exFloatRepo (by decide) "installer" { head := 7, branchTip := 7 }
      (by decide)
    exact absurd hbad (by decide)

/-- Claim C1 (corrected): after a successful synchronization the
superproject HEAD is at the commit the requested version label resolves to
when one was given, and otherwise on the local default branch at the
fast-forwarded remote default tip (equal to the remote tip unless the local
branch was strictly ahead of it); every labelled submodule that the run
pinned has its HEAD at the commit its label resolves to in its own remote;
but a submodule whose requested label is None ends on its own remote
default branch at (at least) that remote's tip — the recursive
reset-and-pull moves it there — and not, in general, at the gitlink commit
recorded by the superproject.  Distinct labelled names are assumed to
resolve to distinct paths and submodule paths to be distinct, as in every
call site. -/
theorem clone_repo_success_state (w : World) (g : Bool) (url target : String)
    (fs : Option LocalRepo) (version : Option String)
    (subVers : List (String × Option String)) (r' : LocalRepo)
    (hnd : (w.subs.map Prod.fst).Nodup)
    (hnames : (subVers.map Prod.fst).Nodup)
    (hdist : ∀ n₁ v₁ n₂ v₂ p, (n₁, some v₁) ∈ subVers → (n₂, some v₂) ∈ subVers →
      matchW w n₁ = [p] → matchW w n₂ = [p] → n₁ = n₂)
    (h : (cloneRepo w g url target fs version subVers).2 = .ok r') :
    (version = none → r'.head = r'.branchTip ∧
      (r'.branchTip = w.remote.tip ∨ w.anc w.remote.tip r'.branchTip = true)) ∧
    (∀ v, version = some v → ∃ c, List.lookup v w.remote.refs = some c ∧ r'.head = c) ∧
    (∀ n v, (n, some v) ∈ subVers → ∃ p rem c s,
      matchW w n = [p] ∧ List.lookup p w.subs = some rem ∧
      List.lookup v rem.refs = some c ∧
      List.lookup p r'.subs = some s ∧ s.head = c) ∧
    (∀ p rem, List.lookup p w.subs = some rem →
      (∀ n v, (n, some v) ∈ subVers → matchW w n ≠ [p]) →
      ∃ s, List.lookup p r'.subs = some s ∧ s.head = s.branchTip ∧
        (s.branchTip = rem.tip ∨ w.anc rem.tip s.branchTip = true)) := by
  obtain ⟨r₀, hupd⟩ : ∃ r₀, (updateCode w r₀ version subVers).2 = .ok r' := by
    rcases fs with _ | r
    · refine ⟨cloneOf w, ?_⟩
      rw [cloneRepo_none] at h
      exact h
    · refine ⟨r, ?_⟩
      rw [cloneRepo_some] at h
      exact h
  rcases hs : syncPhase w r₀ with ⟨tr, res⟩
  rcases res with e | rs
  · rw [updateCode_sync_err w r₀ version subVers tr e hs] at hupd
    exact Except.noConfusion hupd
  · rw [updateCode_sync_ok w r₀ version subVers tr rs hs] at hupd
    have hpin : (pinPhase w rs version subVers).2 = .ok r' := hupd
    obtain ⟨_, hhb, hpf, hsync⟩ := syncPhase_ok_inv w r₀ tr rs hnd hs
    have hkeysF : List.Forall₂ (fun (pr : String × RemoteRepo) (qs : String × LocalSub) =>
        pr.1 = qs.1) w.subs rs.subs :=
      List.Forall₂.imp (fun _ _ hab => hab.1) hsync
    have hkeys : rs.subs.map Prod.fst = w.subs.map Prod.fst := forall₂_keys_eq hkeysF
    have haligned := lookup_aligned hkeysF hnd
    have hmain : ∃ rX tpin, pinSubs w rX subVers = (tpin, .ok r') ∧ rX.subs = rs.subs ∧
        rX.branchTip = rs.branchTip ∧
        ((version = none ∧ rX.head = rs.head) ∨
         (∃ v c, version = some v ∧ List.lookup v w.remote.refs = some c ∧ rX.head = c)) := by
      rcases version with _ | v
      · rcases hp : pinSubs w rs subVers with ⟨tp, resp⟩
        rw [pinPhase_none, hp] at hpin
        have hresp : resp = .ok r' := hpin
        subst hresp
        exact ⟨rs, tp, hp, rfl, rfl, Or.inl ⟨rfl, rfl⟩⟩
      · rcases hck : checkoutLabel w rs v with e | rMid
        · rw [pinPhase_some_err w rs v subVers e hck] at hpin
          exact Except.noConfusion hpin
        · obtain ⟨c, hc, hmid⟩ := checkoutLabel_ok_inv w rs v rMid hck
          rw [pinPhase_some_ok w rs v subVers rMid hck] at hpin
          have h2 : (pinSubs w rMid subVers).2 = .ok r' := hpin
          rcases hp : pinSubs w rMid subVers with ⟨tp, resp⟩
          rw [hp] at h2
          have hresp : resp = .ok r' := h2
          subst hresp
          subst hmid
          exact ⟨_, tp, hp, rfl, rfl, Or.inr ⟨v, c, rfl, hc, rfl⟩⟩
    obtain ⟨rX, tpin, hpins, hXsubs, hXbt, hXhead⟩ := hmain
    obtain ⟨hh', hb', hbt'⟩ := pinSubs_ok_inv w subVers rX tpin r' hpins
    refine ⟨?_, ?_, ?_, ?_⟩
    · intro hv
      rcases hXhead with ⟨_, hXh⟩ | ⟨v, c, hveq, _, _⟩
      · have e1 : r'.head = rs.branchTip := by rw [hh', hXh, hhb]
        have e2 : r'.branchTip = rs.branchTip := by rw [hb', hXbt]
        refine ⟨by rw [e1, e2], ?_⟩
        rw [e2]
        exact pullFF_result w rs.branchTip w.remote.tip rs.branchTip hpf
      · rw [hv] at hveq
        cases hveq
    · intro v hv
      rcases hXhead with ⟨hnone, _⟩ | ⟨v₀, c, hveq, hc, hXh⟩
      · rw [hv] at hnone
        cases hnone
      · rw [hv] at hveq
        injection hveq with hveq'
        subst hveq'
        exact ⟨c, hc, by rw [hh', hXh]⟩
    · intro n v hmem
      obtain ⟨pre, post, hsplit⟩ := List.append_of_mem hmem
      subst hsplit
      obtain ⟨t1, rM, t2, hpre, hcons, _⟩ := pinSubs_append_ok w pre _ rX tpin r' hpins
      obtain ⟨_, _, hbtM⟩ := pinSubs_ok_inv w pre rX t1 rM hpre
      have hkeysM : rM.subs.map Prod.fst = w.subs.map Prod.fst := by
        have hmf := congrArg (List.map Prod.fst) hbtM
        rw [map_fst_btMap, map_fst_btMap] at hmf
        rw [hmf, hXsubs, hkeys]
      rcases hp2 : pinSub w rM n v with ⟨cmds, res⟩
      rcases res with e | rN
      · rw [pinSubs_cons_err w rM n v post cmds e hp2] at hcons
        exact Except.noConfusion (congrArg Prod.snd hcons)
      · rw [pinSubs_cons_ok w rM n v post cmds rN hp2] at hcons
        rcases hq : pinSubs w rN post with ⟨tq, resq⟩
        rw [hq] at hcons
        have hresq : resq = .ok r' := congrArg Prod.snd hcons
        subst hresq
        obtain ⟨p₀, rem, s, c, hm, hw, hr2, hvref, _, hrN⟩ := pinSub_ok_inv w rM n v cmds rN hp2
        have hmW : matchW w n = [p₀] :=
          (matchingPaths_eq_matchW w rM.subs n hkeysM).symm.trans hm
        have hlookN : List.lookup p₀ rN.subs = some { head := c, branchTip := s.branchTip } := by
          rw [hrN]
          exact lookup_setSub_self rM.subs p₀ _ s hr2
        have hkeysN : rN.subs.map Prod.fst = w.subs.map Prod.fst := by
          rw [hrN]
          exact (keys_setSub rM.subs p₀ _).trans hkeysM
        have hnopost : ∀ n₂ v₂, (n₂, some v₂) ∈ post → matchingPaths rN.subs n₂ ≠ [p₀] := by
          intro n₂ v₂ hm₂ hbad
          have hbadW : matchW w n₂ = [p₀] :=
            (matchingPaths_eq_matchW w rN.subs n₂ hkeysN).symm.trans hbad
          have hn₂ : n₂ = n := hdist n₂ v₂ n v p₀
            (List.mem_append.mpr (Or.inr (List.mem_cons_of_mem _ hm₂)))
            (List.mem_append.mpr (Or.inr (List.mem_cons_self _ _)))
            hbadW hmW
          subst hn₂
          have hnmem : n₂ ∈ post.map Prod.fst := List.mem_map_of_mem Prod.fst hm₂
          have hnames' := hnames
          rw [List.map_append, List.map_cons] at hnames'
          exact (List.nodup_cons.mp (List.Nodup.of_append_right hnames')).1 hnmem
        have huntouched := pinSubs_untouched w post p₀ rN tq r' hq hnopost
        refine ⟨p₀, rem, c, { head := c, branchTip := s.branchTip }, hmW, hw, hvref, ?_, rfl⟩
        rw [huntouched]
        exact hlookN
    · intro p rem hlk hno
      have hmemw : (p, rem) ∈ w.subs := lookup_mem hlk
      have hcomb := forall₂_conj hsync haligned
      obtain ⟨qs, _, hfacts⟩ := forall₂_mem_left hcomb hmemw
      obtain ⟨⟨_, hqhb, hqpf⟩, hqlook⟩ := hfacts
      have hXkeys : rX.subs.map Prod.fst = w.subs.map Prod.fst := by rw [hXsubs, hkeys]
      have hnoX : ∀ n v, (n, some v) ∈ subVers → matchingPaths rX.subs n ≠ [p] := by
        intro n v hm₂ hbad
        exact hno n v hm₂ ((matchingPaths_eq_matchW w rX.subs n hXkeys).symm.trans hbad)
      have huntouched := pinSubs_untouched w subVers p rX tpin r' hpins hnoX
      refine ⟨qs.2, ?_, hqhb, ?_⟩
      · rw [huntouched, hXsubs]
        exact hqlook
      · exact pullFF_result w _ _ _ hqpf

/-- Witness for C1 (corrected) at a concrete instance: pinning the
`installer` submodule to `v1` leaves its HEAD at the commit `v1` resolves
to (8) in the final state. -/
theorem clone_repo_success_state_witness :
    ∃ p rem c s, matchW exWorld "installer" = [p] ∧
      List.lookup p exWorld.subs = some rem ∧
      List.lookup "v1" rem.refs = some c ∧
      List.lookup p exPinnedRepo.subs = some s ∧
      s.head = c :=
  ((clone_repo_success_state exWorld true "u" "t" none (some "v0")
      [("installer", some "v1")] exPinnedRepo
      (by decide) (by decide)
      (fun n₁ v₁ n₂ v₂ p h₁ h₂ _ _ => by
        simp only [List.mem_singleton, Prod.mk.injEq] at h₁ h₂
        rw [h₁.1, h₂.1])
      (by decide)).2.2.1) "installer" "v1" (by decide)

end PublicInstall
